import Mathlib

/-!
Verification of the TBB-backed data-parallel execution engine
(itkTBBMultiThreader.cxx): the region splitter used for
ParallelizeImageRegion, and the three dispatch entry points
SingleMethodExecute, ParallelizeArray and ParallelizeImageRegion.

The shallow embedding translates the C++ source directly:
machine sizes (size_t / SizeValueType) become Nat, index values
(IndexValueType) become Int, and the itkExceptionMacro throws become
Except.error values.  The external TBB scheduler is modelled by its
documented contract: a parallel_for over a blocked_range with grain
size 1 and a simple_partitioner invokes the body exactly once per unit
subrange, i.e. once per integer index of the range; the
auto_partitioner decomposition used for regions is kept as an explicit
parameter (the list of leaf chunks the scheduler chose).
-/

/-- Model of itk::ImageIORegion as used by TBBImageRegionSplitter:
an N-dimensional axis-aligned box given by a per-dimension start index
and size.  The image dimension is the length of the two lists. -/
structure ImageIORegion where
  index : List Int
  size : List Nat
deriving DecidableEq, Repr

/-- The dimension scan of the proportional-split constructor: the loop
runs d from GetImageDimension()-1 down to 0 and picks the first d with
GetSize(d) > 1.  Returns that d, or none when no dimension qualifies. -/
def findSplitDim (size : List Nat) : Option Nat :=
  (List.range size.length).reverse.find? fun d => decide (1 < size.getD d 0)

/-- Model of TBBImageRegionSplitter(TBBImageRegionSplitter& region,
tbb::proportional_split p).  The constructed object starts as a copy of
region; along the chosen dimension d it keeps the original index and
gets size myP = size[d]*p.right()/(p.left()+p.right()) with the two
clamping corrections of the source, while the invoking region keeps
size[d]-myP and has its index advanced by myP.  The result pair is
(constructed object, invoking region after the split); when no
dimension has size > 1 the source throws via itkGenericExceptionMacro,
modelled as Except.error. -/
def proportionalSplit (region : ImageIORegion) (left right : Nat) :
    Except String (ImageIORegion × ImageIORegion) :=
  match findSplitDim region.size with
  | some d =>
    let sd := region.size.getD d 0
    let q := sd * right / (left + right)
    let myP := if q = 0 then 1 else if q = sd then sd - 1 else q
    Except.ok
      (⟨region.index, region.size.set d myP⟩,
       ⟨region.index.set d (region.index.getD d 0 + (myP : Int)),
        region.size.set d (sd - myP)⟩)
  | none => Except.error "An ImageIORegion could not be split"

namespace ImageIORegion

/-- Model of TBBImageRegionSplitter::empty: true iff some dimension has
size 0. -/
def empty (r : ImageIORegion) : Bool :=
  r.size.any fun s => s == 0

/-- Model of TBBImageRegionSplitter::is_divisible: true iff some
dimension has size greater than 1. -/
def is_divisible (r : ImageIORegion) : Bool :=
  r.size.any fun s => decide (1 < s)

end ImageIORegion

/-- Pointwise membership test: inBounds is ss ps holds when the point
ps has the same dimension as the box described by indices is and sizes
ss and lies inside it in every dimension. -/
def inBounds : List Int → List Nat → List Int → Bool
  | [], [], [] => true
  | i :: is, s :: ss, p :: ps =>
      (decide (i ≤ p) && decide (p < i + (s : Int))) && inBounds is ss ps
  | _, _, _ => false

/-- A point (given by its coordinate list) belongs to a region's index
set. -/
def memB (pt : List Int) (r : ImageIORegion) : Bool :=
  inBounds r.index r.size pt

/-- If the dimension scan found d, then d is a valid dimension and its
size exceeds 1. -/
theorem findSplitDim_some {size : List Nat} {d : Nat}
    (h : findSplitDim size = some d) :
    d < size.length ∧ 1 < size.getD d 0 := by
  have hm := List.mem_of_find?_eq_some h
  have hp := List.find?_some h
  simp only [List.mem_reverse, List.mem_range] at hm
  simp only [decide_eq_true_eq] at hp
  exact ⟨hm, hp⟩

/-- If every size is at most 1 the dimension scan fails. -/
theorem findSplitDim_eq_none {size : List Nat} (h : ∀ s ∈ size, s ≤ 1) :
    findSplitDim size = none := by
  apply List.find?_eq_none.mpr
  intro d hd
  simp only [List.mem_reverse, List.mem_range] at hd
  simp only [decide_eq_true_eq, not_lt]
  have : size.getD d 0 = size[d] := List.getD_eq_getElem size 0 hd
  rw [this]
  exact h _ (List.getElem_mem hd)

/-- If the dimension scan fails then every size is at most 1. -/
theorem findSplitDim_none {size : List Nat} (h : findSplitDim size = none) :
    ∀ s ∈ size, s ≤ 1 := by
  intro s hs
  by_contra hgt
  push_neg at hgt
  obtain ⟨d, hd, hds⟩ := List.mem_iff_getElem.mp hs
  have hmem : d ∈ (List.range size.length).reverse := by
    simp only [List.mem_reverse, List.mem_range]; exact hd
  have := List.find?_eq_none.mp h d hmem
  simp only [decide_eq_true_eq, not_lt] at this
  rw [List.getD_eq_getElem size 0 hd, hds] at this
  omega

/-- Arithmetic of the two clamping corrections of the source: given a
splittable size sd and a quotient q at most sd, the corrected value is
at least 1, leaves at least 1 on the other side, and equals the
clamping of q to the interval from 1 to sd - 1. -/
theorem clamp_spec (sd q : Nat) (hsd : 2 ≤ sd) (hq : q ≤ sd) :
    1 ≤ (if q = 0 then 1 else if q = sd then sd - 1 else q) ∧
    (if q = 0 then 1 else if q = sd then sd - 1 else q) + 1 ≤ sd ∧
    (if q = 0 then 1 else if q = sd then sd - 1 else q)
      = min (max q 1) (sd - 1) := by
  by_cases h0 : q = 0
  · rw [if_pos h0]; omega
  · rw [if_neg h0]
    by_cases hs : q = sd
    · rw [if_pos hs]; omega
    · rw [if_neg hs]; omega

/-- The quotient computed by the split never exceeds the size being
split. -/
theorem split_quotient_le (sd left right : Nat) :
    sd * right / (left + right) ≤ sd := by
  rcases Nat.eq_zero_or_pos (left + right) with h0 | hpos
  · rw [h0, Nat.div_zero]; exact Nat.zero_le _
  · calc sd * right / (left + right)
        ≤ sd * (left + right) / (left + right) :=
          Nat.div_le_div_right (Nat.mul_le_mul_left sd (Nat.le_add_left _ _))
      _ = sd := Nat.mul_div_cancel sd hpos

/-- Full characterisation of a successful proportional split: the
chosen dimension d comes from the scan, the cut value equals the
quotient size[d]*right/(left+right) clamped to the interval
[1, size[d]-1], the constructed half keeps the original index with
size cut at d, and the invoking half keeps size[d]-cut with its index
advanced by cut; all other dimensions are untouched (List.set). -/
theorem proportionalSplit_ok_spec {r : ImageIORegion} {left right : Nat}
    {a b : ImageIORegion}
    (h : proportionalSplit r left right = Except.ok (a, b)) :
    ∃ d cut,
      findSplitDim r.size = some d ∧
      d < r.size.length ∧
      2 ≤ r.size.getD d 0 ∧
      1 ≤ cut ∧ cut + 1 ≤ r.size.getD d 0 ∧
      cut = min (max (r.size.getD d 0 * right / (left + right)) 1)
                (r.size.getD d 0 - 1) ∧
      a.index = r.index ∧ a.size = r.size.set d cut ∧
      b.index = r.index.set d (r.index.getD d 0 + (cut : Int)) ∧
      b.size = r.size.set d (r.size.getD d 0 - cut) := by
  cases hf : findSplitDim r.size with
  | none =>
    unfold proportionalSplit at h
    rw [hf] at h
    exact absurd h (by simp)
  | some d =>
    obtain ⟨hd, hsd⟩ := findSplitDim_some hf
    have hcomp : proportionalSplit r left right =
        Except.ok
          (⟨r.index, r.size.set d
              (if r.size.getD d 0 * right / (left + right) = 0 then 1
               else if r.size.getD d 0 * right / (left + right) = r.size.getD d 0
               then r.size.getD d 0 - 1
               else r.size.getD d 0 * right / (left + right))⟩,
           ⟨r.index.set d (r.index.getD d 0 +
              (((if r.size.getD d 0 * right / (left + right) = 0 then 1
                 else if r.size.getD d 0 * right / (left + right) = r.size.getD d 0
                 then r.size.getD d 0 - 1
                 else r.size.getD d 0 * right / (left + right)) : Nat) : Int)),
            r.size.set d (r.size.getD d 0 -
              (if r.size.getD d 0 * right / (left + right) = 0 then 1
               else if r.size.getD d 0 * right / (left + right) = r.size.getD d 0
               then r.size.getD d 0 - 1
               else r.size.getD d 0 * right / (left + right)))⟩) := by
      unfold proportionalSplit
      rw [hf]
    rw [hcomp] at h
    simp only [Except.ok.injEq, Prod.mk.injEq] at h
    obtain ⟨ha, hb⟩ := h
    obtain ⟨hc1, hc2, hc3⟩ := clamp_spec (r.size.getD d 0)
      (r.size.getD d 0 * right / (left + right)) (by omega)
      (split_quotient_le _ left right)
    exact ⟨d, _, rfl, hd, by omega, hc1, hc2, hc3,
      by rw [← ha], by rw [← ha], by rw [← hb], by rw [← hb]⟩

/-- Setting position d of a list of naturals exchanges the old entry
for the new one in the sum. -/
theorem sum_set_nat : ∀ (l : List Nat) (d x : Nat), d < l.length →
    (l.set d x).sum + l.getD d 0 = l.sum + x := by
  intro l
  induction l with
  | nil => intro d x hd; simp at hd
  | cons a l ih =>
    intro d x hd
    cases d with
    | zero => simp [List.set]; omega
    | succ d =>
      simp only [List.set, List.sum_cons, List.getD_cons_succ]
      have := ih d x (by simpa using hd)
      omega

/-- Setting position d of a list of naturals exchanges the old entry
for the new one in the product. -/
theorem prod_set_nat : ∀ (l : List Nat) (d x : Nat), d < l.length →
    (l.set d x).prod * l.getD d 0 = l.prod * x := by
  intro l
  induction l with
  | nil => intro d x hd; simp at hd
  | cons a l ih =>
    intro d x hd
    cases d with
    | zero => simp [List.set]; ring
    | succ d =>
      simp only [List.set, List.prod_cons, List.getD_cons_succ]
      have := ih d x (by simpa using hd)
      calc a * (l.set d x).prod * l.getD d 0
          = a * ((l.set d x).prod * l.getD d 0) := by ring
        _ = a * (l.prod * x) := by rw [this]
        _ = a * l.prod * x := by ring

/-- Both halves of a successful split have a strictly smaller total
size, which gives termination of recursive splitting. -/
theorem proportionalSplit_sum_lt {r : ImageIORegion} {left right : Nat}
    {a b : ImageIORegion}
    (h : proportionalSplit r left right = Except.ok (a, b)) :
    a.size.sum < r.size.sum ∧ b.size.sum < r.size.sum := by
  obtain ⟨d, cut, _, hd, hsd, hc1, hc2, _, _, hasz, _, hbsz⟩ :=
    proportionalSplit_ok_spec h
  have hsum1 := sum_set_nat r.size d cut hd
  have hsum2 := sum_set_nat r.size d (r.size.getD d 0 - cut) hd
  constructor
  · rw [hasz]; omega
  · rw [hbsz]; omega

/-- Recursive splitting of a region down to leaves: split with the
simple ratio (1,1), as the tbb::split constructor delegates, for as
long as a split is possible (exactly the regions whose is_divisible
holds); collect the leaf regions left when splitting is no longer
possible. -/
def splitAll (r : ImageIORegion) : List ImageIORegion :=
  match hm : proportionalSplit r 1 1 with
  | Except.ok (a, b) => splitAll a ++ splitAll b
  | Except.error _ => [r]
termination_by r.size.sum
decreasing_by
  · exact (proportionalSplit_sum_lt hm).1
  · exact (proportionalSplit_sum_lt hm).2

/-- Unfolding lemma for splitAll on a splittable region. -/
theorem splitAll_ok {r a b : ImageIORegion}
    (h : proportionalSplit r 1 1 = Except.ok (a, b)) :
    splitAll r = splitAll a ++ splitAll b := by
  rw [splitAll.eq_def]
  split
  · rename_i a' b' heq
    rw [h] at heq
    cases heq
    rfl
  · rename_i e heq
    rw [h] at heq
    cases heq

/-- Unfolding lemma for splitAll on an unsplittable region. -/
theorem splitAll_err {r : ImageIORegion} {e : String}
    (h : proportionalSplit r 1 1 = Except.error e) :
    splitAll r = [r] := by
  rw [splitAll.eq_def]
  split
  · rename_i a' b' heq
    rw [h] at heq
    cases heq
  · rfl

/-- Interval splitting along one dimension d: a point is in the box
exactly when it is in the half with size cut at d (same indices) or in
the half with the remaining size and the index at d advanced by cut,
and it is never in both. -/
theorem inBounds_split :
    ∀ (d : Nat) (is : List Int) (ss : List Nat) (ps : List Int) (cut : Nat),
    d < ss.length → is.length = ss.length → cut ≤ ss.getD d 0 →
    ((inBounds is ss ps = true ↔
        inBounds is (ss.set d cut) ps = true ∨
        inBounds (is.set d (is.getD d 0 + (cut : Int)))
          (ss.set d (ss.getD d 0 - cut)) ps = true)
     ∧ ¬(inBounds is (ss.set d cut) ps = true ∧
          inBounds (is.set d (is.getD d 0 + (cut : Int)))
            (ss.set d (ss.getD d 0 - cut)) ps = true)) := by
  intro d
  induction d with
  | zero =>
    intro is ss ps cut hd hlen hcut
    match ss, is with
    | [], _ => simp at hd
    | s :: ss₁, [] => simp at hlen
    | s :: ss₁, i :: is₁ =>
      cases ps with
      | nil => simp [inBounds]
      | cons p ps₁ =>
        simp only [List.getD_cons_zero] at hcut ⊢
        simp only [List.set_cons_zero]
        simp only [inBounds, Bool.and_eq_true, decide_eq_true_eq]
        cases hB : inBounds is₁ ss₁ ps₁ with
        | false => simp
        | true =>
          simp only [and_true]
          constructor
          · constructor
            · intro hin
              by_cases hp : p < i + (cut : Int)
              · exact Or.inl ⟨hin.1, hp⟩
              · push_neg at hp
                refine Or.inr ⟨hp, ?_⟩
                have := hin.2
                omega
            · rintro (⟨h1, h2⟩ | ⟨h1, h2⟩) <;> constructor <;> omega
          · rintro ⟨⟨h1, h2⟩, ⟨h3, h4⟩⟩
            omega
  | succ d ih =>
    intro is ss ps cut hd hlen hcut
    match ss, is with
    | [], _ => simp at hd
    | s :: ss₁, [] => simp at hlen
    | s :: ss₁, i :: is₁ =>
      cases ps with
      | nil => simp [inBounds]
      | cons p ps₁ =>
        have hcut' : cut ≤ ss₁.getD d 0 := hcut
        obtain ⟨ih1, ih2⟩ := ih is₁ ss₁ ps₁ cut (by simpa using hd)
          (by simpa using hlen) hcut'
        have hgi : (i :: is₁).getD (d + 1) 0 = is₁.getD d 0 := rfl
        have hgs : (s :: ss₁).getD (d + 1) 0 = ss₁.getD d 0 := rfl
        have hsi : ∀ x : Int, (i :: is₁).set (d + 1) x = i :: is₁.set d x :=
          fun _ => rfl
        have hss : ∀ x : Nat, (s :: ss₁).set (d + 1) x = s :: ss₁.set d x :=
          fun _ => rfl
        rw [hgi, hgs, hsi, hss, hss]
        have hib : ∀ (x : List Int) (y : List Nat) (z : List Int),
            inBounds (i :: x) (s :: y) (p :: z)
              = ((decide (i ≤ p) && decide (p < i + (s : Int)))
                  && inBounds x y z) := fun _ _ _ => rfl
        rw [hib, hib, hib]
        cases hH : (decide (i ≤ p) && decide (p < i + (s : Int))) with
        | false => simp
        | true =>
          simp only [Bool.true_and]
          exact ⟨ih1, ih2⟩

/-- A successful split partitions the region's index set: every point
of the region is in exactly one of the two halves, and the halves
contain no points outside the region. -/
theorem split_mem_iff {r a b : ImageIORegion} {left right : Nat}
    (hlen : r.index.length = r.size.length)
    (h : proportionalSplit r left right = Except.ok (a, b)) (pt : List Int) :
    (memB pt r = true ↔ (memB pt a = true ∨ memB pt b = true))
    ∧ ¬(memB pt a = true ∧ memB pt b = true) := by
  obtain ⟨d, cut, _, hd, _, _, hc2, _, hai, hasz, hbi, hbsz⟩ :=
    proportionalSplit_ok_spec h
  have hsplit := inBounds_split d r.index r.size pt cut hd hlen (by omega)
  unfold memB
  rw [hai, hasz, hbi, hbsz]
  exact hsplit

/-- Recursive splitting down to leaves is a partition, proved by
strong induction on the total size: every leaf has unit size in every
dimension, the number of leaves equals the element count of the
region, and every point lies in exactly one leaf (count 1 for points
of the region, count 0 for points outside it). -/
theorem splitAll_spec :
    ∀ (n : Nat) (r : ImageIORegion), r.size.sum ≤ n →
    r.index.length = r.size.length → (∀ s ∈ r.size, 1 ≤ s) →
    (∀ l ∈ splitAll r,
        l.index.length = l.size.length ∧ ∀ s ∈ l.size, s = 1)
    ∧ (splitAll r).length = r.size.prod
    ∧ ∀ pt, (splitAll r).countP (fun l => memB pt l)
        = if memB pt r then 1 else 0 := by
  intro n
  induction n with
  | zero =>
    intro r hsum hlen hpos
    have hnil : r.size = [] := by
      cases hsz : r.size with
      | nil => rfl
      | cons s ss =>
        have h1 : 1 ≤ s := hpos s (by rw [hsz]; exact List.mem_cons_self s ss)
        rw [hsz] at hsum
        simp only [List.sum_cons] at hsum
        omega
    have herr : proportionalSplit r 1 1
        = Except.error "An ImageIORegion could not be split" := by
      unfold proportionalSplit
      rw [findSplitDim_eq_none (by rw [hnil]; intro s hs; simp at hs)]
    rw [splitAll_err herr]
    refine ⟨?_, ?_, ?_⟩
    · intro l hl
      rw [List.mem_singleton] at hl
      subst hl
      exact ⟨hlen, by rw [hnil]; intro s hs; simp at hs⟩
    · simp [hnil]
    · intro pt
      simp [List.countP_cons, List.countP_nil]
  | succ n ih =>
    intro r hsum hlen hpos
    cases hsplit : proportionalSplit r 1 1 with
    | error e =>
      rw [splitAll_err hsplit]
      have hnone : findSplitDim r.size = none := by
        cases hf : findSplitDim r.size with
        | none => rfl
        | some d =>
          unfold proportionalSplit at hsplit
          rw [hf] at hsplit
          exact absurd hsplit (by simp)
      have hone : ∀ s ∈ r.size, s = 1 := fun s hs =>
        le_antisymm (findSplitDim_none hnone s hs) (hpos s hs)
      refine ⟨?_, ?_, ?_⟩
      · intro l hl
        rw [List.mem_singleton] at hl
        subst hl
        exact ⟨hlen, hone⟩
      · simp [List.prod_eq_one hone]
      · intro pt
        simp [List.countP_cons, List.countP_nil]
    | ok ab =>
      obtain ⟨a, b⟩ := ab
      rw [splitAll_ok hsplit]
      obtain ⟨d, cut, hf, hd, hsd2, hc1, hc2, hc3, hai, hasz, hbi, hbsz⟩ :=
        proportionalSplit_ok_spec hsplit
      have hlen_a : a.index.length = a.size.length := by
        rw [hai, hasz, List.length_set]
        exact hlen
      have hlen_b : b.index.length = b.size.length := by
        rw [hbi, hbsz, List.length_set, List.length_set]
        exact hlen
      have hpos_a : ∀ s ∈ a.size, 1 ≤ s := by
        rw [hasz]
        intro s hs
        rcases List.mem_or_eq_of_mem_set hs with h | h
        · exact hpos s h
        · omega
      have hpos_b : ∀ s ∈ b.size, 1 ≤ s := by
        rw [hbsz]
        intro s hs
        rcases List.mem_or_eq_of_mem_set hs with h | h
        · exact hpos s h
        · omega
      have hsum_a : a.size.sum ≤ n := by
        have := sum_set_nat r.size d cut hd
        rw [hasz]
        omega
      have hsum_b : b.size.sum ≤ n := by
        have := sum_set_nat r.size d (r.size.getD d 0 - cut) hd
        rw [hbsz]
        omega
      obtain ⟨hLa, hla, hca⟩ := ih a hsum_a hlen_a hpos_a
      obtain ⟨hLb, hlb, hcb⟩ := ih b hsum_b hlen_b hpos_b
      refine ⟨?_, ?_, ?_⟩
      · intro l hl
        rcases List.mem_append.mp hl with h | h
        · exact hLa l h
        · exact hLb l h
      · rw [List.length_append, hla, hlb, hasz, hbsz]
        have h1 := prod_set_nat r.size d cut hd
        have h2 := prod_set_nat r.size d (r.size.getD d 0 - cut) hd
        have hsd_pos : 0 < r.size.getD d 0 := by omega
        apply Nat.eq_of_mul_eq_mul_right hsd_pos
        calc ((r.size.set d cut).prod
                + (r.size.set d (r.size.getD d 0 - cut)).prod)
              * r.size.getD d 0
            = (r.size.set d cut).prod * r.size.getD d 0
                + (r.size.set d (r.size.getD d 0 - cut)).prod
                  * r.size.getD d 0 := by ring
          _ = r.size.prod * cut
                + r.size.prod * (r.size.getD d 0 - cut) := by rw [h1, h2]
          _ = r.size.prod * r.size.getD d 0 := by
                rw [← Nat.mul_add]
                congr 1
                omega
      · intro pt
        rw [List.countP_append, hca pt, hcb pt]
        obtain ⟨hiff, hdisj⟩ := split_mem_iff hlen hsplit pt
        by_cases hm : memB pt r = true
        · rcases hiff.mp hm with hina | hinb
          · have hnb : ¬ memB pt b = true := fun hb => hdisj ⟨hina, hb⟩
            rw [if_pos hm, if_pos hina, if_neg hnb]
          · have hna : ¬ memB pt a = true := fun ha => hdisj ⟨ha, hinb⟩
            rw [if_pos hm, if_neg hna, if_pos hinb]
        · have hna : ¬ memB pt a = true := fun h => hm (hiff.mpr (Or.inl h))
          have hnb : ¬ memB pt b = true := fun h => hm (hiff.mpr (Or.inr h))
          rw [if_neg hm, if_neg hna, if_neg hnb]

/-- Model of the leaf-task loop that tbb::parallel_for runs over the
unit subranges (or, for regions, over the chunks the partitioner
chose).  Each leaf first evaluates the abort test
(filter && filter-GetAbortGenerateData()), raising ProcessAborted and
invoking nothing when it is true, and otherwise invokes the work
function on its element; the result collects the elements on which the
work function was invoked together with the outcome.  The abort flag
is a fixed value here: the model covers executions during which the
abort state does not change. -/
def runLeaves {α : Type} (abort : Bool) : List α → List α × Except String Unit
  | [] => ([], Except.ok ())
  | i :: rest =>
    if abort then ([], Except.error "ProcessAborted")
    else
      let (inv, out) := runLeaves abort rest
      (i :: inv, out)

/-- The post-dispatch recheck at the end of ParallelizeArray and
ParallelizeImageRegion: when a filter is present and its abort flag is
set, throw ProcessAborted. -/
def finalAbortCheck (filter : Option Bool) : Except String Unit :=
  match filter with
  | some true => Except.error "ProcessAborted"
  | _ => Except.ok ()

/-- Sequencing of the parallel loop with the trailing
filter-UpdateProgress / abort-recheck block: a raised error propagates
to the caller, a normal completion runs the final abort check. -/
def afterLoop {α : Type} (filter : Option Bool) :
    List α × Except String Unit → List α × Except String Unit
  | (inv, Except.error e) => (inv, Except.error e)
  | (inv, Except.ok _) => (inv, finalAbortCheck filter)

/-- Model of TBBMultiThreader::ParallelizeArray.  The filter argument
is the optional ProcessObject, reduced to its abort flag; workSet
records whether a work function was configured — the source never
tests it, so the model never reads it.  A range of more than one
element goes through tbb::parallel_for with grain size 1 and
simple_partitioner, modelled as one leaf per index of the range; a
one-element range invokes the work function directly with no abort
check; an empty range invokes nothing.  The returned list holds the
indices on which the work function was invoked, in model order. -/
def ParallelizeArray (firstIndex lastIndexPlus1 : Nat) (workSet : Bool)
    (filter : Option Bool) : List Nat × Except String Unit :=
  afterLoop filter
    (if firstIndex + 1 < lastIndexPlus1 then
      runLeaves (filter.getD false)
        (List.range' firstIndex (lastIndexPlus1 - firstIndex))
    else if firstIndex + 1 = lastIndexPlus1 then
      ([firstIndex], Except.ok ())
    else ([], Except.ok ()))

/-- Model of TBBMultiThreader::SingleMethodExecute.  If no single
method is set it throws; otherwise tbb::parallel_for with grain size 1
and simple_partitioner runs the method once per ThreadID in
[0, m_NumberOfThreads).  The returned list holds the ThreadID values
passed to the method. -/
def SingleMethodExecute (methodSet : Bool) (numberOfThreads : Nat) :
    List Nat × Except String Unit :=
  if methodSet = false then ([], Except.error "No single method set!")
  else runLeaves false (List.range' 0 numberOfThreads)

/-- Model of TBBMultiThreader::ParallelizeImageRegion.  With one
configured thread the work function is invoked directly on the
original index and size arrays, with no abort check before it.
Otherwise the region splitter is handed to tbb::parallel_for with the
auto partitioner; the decomposition the external scheduler settles on
is the chunks parameter (any list of sub-regions; it is empty when the
scheduler schedules nothing, as TBB does for a range whose empty()
test holds), and each leaf checks the abort flag before invoking the
work function on its chunk.  workSet again records whether a work
function was configured and is never read, as in the source. -/
def ParallelizeImageRegion (numberOfThreads : Nat) (index : List Int)
    (size : List Nat) (workSet : Bool) (filter : Option Bool)
    (chunks : List ImageIORegion) :
    List ImageIORegion × Except String Unit :=
  afterLoop filter
    (if numberOfThreads = 1 then
      ([(⟨index, size⟩ : ImageIORegion)], Except.ok ())
    else runLeaves (filter.getD false) chunks)

/-- Without an abort request every leaf runs: the invocation list is
the whole element list and the loop completes. -/
theorem runLeaves_false {α : Type} (l : List α) :
    runLeaves false l = (l, Except.ok ()) := by
  induction l with
  | nil => rfl
  | cons a l ih => simp [runLeaves, ih]

/-- With the abort flag set and a nonempty element list, the first
leaf raises before any invocation. -/
theorem runLeaves_true {α : Type} (a : α) (l : List α) :
    runLeaves true (a :: l) = ([], Except.error "ProcessAborted") := rfl

/-- Occurrence count of an index in a half-open integer range. -/
theorem count_range' (s n i : Nat) :
    (List.range' s n).count i = if s ≤ i ∧ i < s + n then 1 else 0 := by
  by_cases h : s ≤ i ∧ i < s + n
  · rw [if_pos h]
    exact List.count_eq_one_of_mem (List.nodup_range' _ _)
      (List.mem_range'_1.mpr h)
  · rw [if_neg h]
    exact List.count_eq_zero.mpr fun hm => h (List.mem_range'_1.mp hm)

/-- A filter that is absent or not aborting gives abort flag false. -/
theorem filter_not_aborting {filter : Option Bool}
    (h : filter ≠ some true) : filter.getD false = false := by
  cases filter with
  | none => rfl
  | some b => cases b with
    | false => rfl
    | true => exact absurd rfl h

/-- With no abort requested, ParallelizeArray reduces to the list of
indices of the range, whatever branch is taken. -/
theorem ParallelizeArray_normal (firstIndex lastIndexPlus1 : Nat)
    (workSet : Bool) (filter : Option Bool) (h : filter ≠ some true) :
    ParallelizeArray firstIndex lastIndexPlus1 workSet filter
      = (List.range' firstIndex (lastIndexPlus1 - firstIndex),
         Except.ok ()) := by
  have hab := filter_not_aborting h
  have hfc : finalAbortCheck filter = Except.ok () := by
    cases filter with
    | none => rfl
    | some b => cases b with
      | false => rfl
      | true => exact absurd rfl h
  unfold ParallelizeArray
  rw [hab]
  by_cases h1 : firstIndex + 1 < lastIndexPlus1
  · rw [if_pos h1, runLeaves_false]
    simp [afterLoop, hfc]
  · rw [if_neg h1]
    by_cases h2 : firstIndex + 1 = lastIndexPlus1
    · rw [if_pos h2]
      have h3 : lastIndexPlus1 - firstIndex = 1 := by omega
      rw [h3]
      simp [afterLoop, List.range'_succ, hfc]
    · rw [if_neg h2]
      have h3 : lastIndexPlus1 - firstIndex = 0 := by omega
      rw [h3]
      simp [afterLoop, hfc]

/-- Reading the position that was just set. -/
theorem getD_set_self {α : Type} (l : List α) (d : Nat) (x y : α)
    (h : d < l.length) : (l.set d x).getD d y = x := by
  rw [List.getD_eq_getElem _ y (by rw [List.length_set]; exact h)]
  exact List.getElem_set_self _

/-- Reading any other position after a set. -/
theorem getD_set_ne {α : Type} (l : List α) (d j : Nat) (x y : α)
    (h : d ≠ j) : (l.set d x).getD j y = l.getD j y := by
  rw [List.getD_eq_getElem?_getD, List.getD_eq_getElem?_getD,
    List.getElem?_set_ne h]

/-- C2: region splitting is a partition.  For a region (with aligned
index and size lists) any successful split with a positive ratio gives
two halves whose index sets are disjoint with union the original
region; and recursive splitting with the simple ratio (1,1) while a
split is possible gives leaves of unit size in every dimension whose
number equals the element count of the region and which contain every
point of the region exactly once and no other point. -/
theorem C2_region_split_partition (r : ImageIORegion)
    (hlen : r.index.length = r.size.length) :
    (∀ left right a b, 1 ≤ left → 1 ≤ right →
        proportionalSplit r left right = Except.ok (a, b) →
        ∀ pt, (memB pt r = true ↔ (memB pt a = true ∨ memB pt b = true))
          ∧ ¬(memB pt a = true ∧ memB pt b = true))
    ∧ ((∀ s ∈ r.size, 1 ≤ s) →
        (∀ l ∈ splitAll r, ∀ s ∈ l.size, s = 1)
        ∧ (splitAll r).length = r.size.prod
        ∧ ∀ pt, (splitAll r).countP (fun l => memB pt l)
            = if memB pt r then 1 else 0) := by
  constructor
  · intro left right a b _ _ h pt
    exact split_mem_iff hlen h pt
  · intro hpos
    obtain ⟨h1, h2, h3⟩ := splitAll_spec r.size.sum r le_rfl hlen hpos
    exact ⟨fun l hl => (h1 l hl).2, h2, h3⟩

/-- Witness for C2 at the 2-by-3 region with corner (0,0): its
hypotheses hold, recursive splitting yields 6 unit leaves, and the
point (1,2) is covered exactly once. -/
theorem C2_region_split_partition_witness :
    (⟨[0, 0], [2, 3]⟩ : ImageIORegion).index.length
        = (⟨[0, 0], [2, 3]⟩ : ImageIORegion).size.length
    ∧ (∀ s ∈ (⟨[0, 0], [2, 3]⟩ : ImageIORegion).size, 1 ≤ s)
    ∧ (splitAll ⟨[0, 0], [2, 3]⟩).length = 6
    ∧ (splitAll ⟨[0, 0], [2, 3]⟩).countP
        (fun l => memB [1, 2] l) = 1 := by
  have h := (C2_region_split_partition ⟨[0, 0], [2, 3]⟩ rfl).2 (by decide)
  refine ⟨rfl, by decide, ?_, ?_⟩
  · rw [h.2.1]
    decide
  · rw [h.2.2 [1, 2]]
    decide

/-- C3: the cut along the chosen dimension d equals
floor(size[d]*right/(left+right)) clamped to [1, size[d]-1], the other
half gets the complement, neither half is empty along d, and a size-10
dimension split with ratio (1,1) gives halves of 5 and 5. -/
theorem C3_split_point_clamping (r : ImageIORegion) (left right d : Nat)
    (a b : ImageIORegion) (hl : 1 ≤ left) (hr : 1 ≤ right)
    (hd : findSplitDim r.size = some d)
    (h : proportionalSplit r left right = Except.ok (a, b)) :
    a.size.getD d 0
      = min (max (r.size.getD d 0 * right / (left + right)) 1)
            (r.size.getD d 0 - 1)
    ∧ b.size.getD d 0 = r.size.getD d 0 - a.size.getD d 0
    ∧ 1 ≤ a.size.getD d 0 ∧ 1 ≤ b.size.getD d 0
    ∧ proportionalSplit ⟨[0], [10]⟩ 1 1
        = Except.ok (⟨[0], [5]⟩, ⟨[5], [5]⟩) := by
  obtain ⟨d', cut, hf', hd', hsd, hc1, hc2, hc3, _, hasz, _, hbsz⟩ :=
    proportionalSplit_ok_spec h
  rw [hd] at hf'
  cases Option.some.inj hf'
  have hga : a.size.getD d 0 = cut := by
    rw [hasz]; exact getD_set_self _ _ _ _ hd'
  have hgb : b.size.getD d 0 = r.size.getD d 0 - cut := by
    rw [hbsz]; exact getD_set_self _ _ _ _ hd'
  refine ⟨by rw [hga, hc3], by rw [hga, hgb], by omega, by omega, rfl⟩

/-- Witness for C3: splitting the one-dimensional size-10 region with
ratio (1,1) picks dimension 0 and the theorem applies. -/
theorem C3_split_point_clamping_witness :
    1 ≤ 1
    ∧ findSplitDim (⟨[0], [10]⟩ : ImageIORegion).size = some 0
    ∧ proportionalSplit ⟨[0], [10]⟩ 1 1
        = Except.ok (⟨[0], [5]⟩, ⟨[5], [5]⟩)
    ∧ ((⟨[0], [5]⟩ : ImageIORegion).size.getD 0 0
        = min (max ((⟨[0], [10]⟩ : ImageIORegion).size.getD 0 0 * 1 / (1 + 1)) 1)
              ((⟨[0], [10]⟩ : ImageIORegion).size.getD 0 0 - 1)) := by
  refine ⟨le_rfl, by decide, rfl, ?_⟩
  exact (C3_split_point_clamping ⟨[0], [10]⟩ 1 1 0 ⟨[0], [5]⟩ ⟨[5], [5]⟩
    le_rfl le_rfl (by decide) rfl).1

/-- C4 counterexample: the claim says the invoking splitter keeps the
original index along the split dimension while the new sibling is
shifted; in the source it is the constructed object that keeps the
original index, and the invoking region (second component) is shifted.
Splitting the size-10 region at cut 5, the invoking region ends at
index 5, not at its original index 0. -/
theorem C4_split_half_assignment_counterexample :
    proportionalSplit ⟨[0], [10]⟩ 1 1
      = Except.ok (⟨[0], [5]⟩, ⟨[5], [5]⟩)
    ∧ (∀ a b : ImageIORegion,
        proportionalSplit ⟨[0], [10]⟩ 1 1 = Except.ok (a, b) →
        ¬b.index = [0]) := by
  refine ⟨rfl, ?_⟩
  intro a b h
  have h0 : proportionalSplit ⟨[0], [10]⟩ 1 1
      = Except.ok ((⟨[0], [5]⟩ : ImageIORegion),
                   (⟨[5], [5]⟩ : ImageIORegion)) := rfl
  have hb : (⟨[5], [5]⟩ : ImageIORegion) = b :=
    congrArg Prod.snd (Except.ok.inj (h0.symm.trans h))
  rw [← hb]
  decide

/-- C4 amended: for every split along the chosen dimension d with cut
value cut, the NEWLY CONSTRUCTED half keeps size[d] = cut and the
original index[d], while the INVOKING region gets
size[d] = original - cut and index[d] advanced by cut; all other
dimensions are unchanged in both halves. -/
theorem C4_split_half_assignment_amended (r : ImageIORegion)
    (left right d : Nat) (a b : ImageIORegion)
    (hlen : r.index.length = r.size.length)
    (hd : findSplitDim r.size = some d)
    (h : proportionalSplit r left right = Except.ok (a, b)) :
    ∃ cut, 1 ≤ cut ∧ cut + 1 ≤ r.size.getD d 0
    ∧ a.index = r.index
    ∧ a.size.getD d 0 = cut
    ∧ b.size.getD d 0 = r.size.getD d 0 - cut
    ∧ b.index.getD d 0 = r.index.getD d 0 + (cut : Int)
    ∧ (∀ j, j ≠ d → a.size.getD j 0 = r.size.getD j 0)
    ∧ (∀ j, j ≠ d → b.size.getD j 0 = r.size.getD j 0)
    ∧ (∀ j, j ≠ d → b.index.getD j 0 = r.index.getD j 0) := by
  obtain ⟨d', cut, hf', hd', hsd, hc1, hc2, _, hai, hasz, hbi, hbsz⟩ :=
    proportionalSplit_ok_spec h
  rw [hd] at hf'
  cases Option.some.inj hf'
  refine ⟨cut, hc1, hc2, hai, ?_, ?_, ?_, ?_, ?_, ?_⟩
  · rw [hasz]; exact getD_set_self _ _ _ _ hd'
  · rw [hbsz]; exact getD_set_self _ _ _ _ hd'
  · rw [hbi]
    exact getD_set_self _ _ _ _ (by rw [hlen]; exact hd')
  · intro j hj; rw [hasz]; exact getD_set_ne _ _ _ _ _ fun he => hj he.symm
  · intro j hj; rw [hbsz]; exact getD_set_ne _ _ _ _ _ fun he => hj he.symm
  · intro j hj; rw [hbi]; exact getD_set_ne _ _ _ _ _ fun he => hj he.symm

/-- Witness for the amended C4 at the size-10 region: the constructed
half keeps index 0 with size 5, the invoking half sits at index 5 with
size 5. -/
theorem C4_split_half_assignment_amended_witness :
    (⟨[0], [10]⟩ : ImageIORegion).index.length
        = (⟨[0], [10]⟩ : ImageIORegion).size.length
    ∧ findSplitDim (⟨[0], [10]⟩ : ImageIORegion).size = some 0
    ∧ ∃ cut, 1 ≤ cut
        ∧ cut + 1 ≤ (⟨[0], [10]⟩ : ImageIORegion).size.getD 0 0
        ∧ (⟨[0], [5]⟩ : ImageIORegion).index
            = (⟨[0], [10]⟩ : ImageIORegion).index
        ∧ (⟨[0], [5]⟩ : ImageIORegion).size.getD 0 0 = cut
        ∧ (⟨[5], [5]⟩ : ImageIORegion).size.getD 0 0
            = (⟨[0], [10]⟩ : ImageIORegion).size.getD 0 0 - cut
        ∧ (⟨[5], [5]⟩ : ImageIORegion).index.getD 0 0
            = (⟨[0], [10]⟩ : ImageIORegion).index.getD 0 0 + (cut : Int)
        ∧ (∀ j, j ≠ 0 → (⟨[0], [5]⟩ : ImageIORegion).size.getD j 0
            = (⟨[0], [10]⟩ : ImageIORegion).size.getD j 0)
        ∧ (∀ j, j ≠ 0 → (⟨[5], [5]⟩ : ImageIORegion).size.getD j 0
            = (⟨[0], [10]⟩ : ImageIORegion).size.getD j 0)
        ∧ (∀ j, j ≠ 0 → (⟨[5], [5]⟩ : ImageIORegion).index.getD j 0
            = (⟨[0], [10]⟩ : ImageIORegion).index.getD j 0) := by
  refine ⟨rfl, by decide, ?_⟩
  exact C4_split_half_assignment_amended ⟨[0], [10]⟩ 1 1 0
    ⟨[0], [5]⟩ ⟨[5], [5]⟩ rfl (by decide) rfl

/-- C5: requesting a split of a region in which no dimension has size
greater than 1 raises the unsplittable-region failure instead of
returning a pair; the operation never silently no-ops. -/
theorem C5_unsplittable_region_error (r : ImageIORegion)
    (left right : Nat) (h : ImageIORegion.is_divisible r = false) :
    proportionalSplit r left right
      = Except.error "An ImageIORegion could not be split" := by
  unfold ImageIORegion.is_divisible at h
  rw [List.any_eq_false] at h
  unfold proportionalSplit
  rw [findSplitDim_eq_none]
  intro s hs
  have := h s hs
  simp only [decide_eq_true_eq] at this
  omega

/-- Witness for C5: the single-element region cannot be split. -/
theorem C5_unsplittable_region_error_witness :
    ImageIORegion.is_divisible ⟨[0], [1]⟩ = false
    ∧ proportionalSplit ⟨[0], [1]⟩ 1 1
        = Except.error "An ImageIORegion could not be split" := by
  refine ⟨by decide, ?_⟩
  exact C5_unsplittable_region_error ⟨[0], [1]⟩ 1 1 (by decide)

/-- C9 counterexample: a region with sizes 0 and 5 is empty and yet
divisible, refuting the part of the claim that every empty region
reports is_divisible false. -/
theorem C9_empty_divisible_counterexample :
    ImageIORegion.empty ⟨[0, 0], [0, 5]⟩ = true
    ∧ ImageIORegion.is_divisible ⟨[0, 0], [0, 5]⟩ = true := by
  decide

/-- C9 amended: is_divisible holds iff some dimension has size above
1, empty holds iff some dimension has size 0, and a region all of
whose sizes are at most 1 — in particular the all-sizes-one state and
the empty regions with no dimension above 1 — reports is_divisible
false.  An empty region may still be divisible when another dimension
exceeds 1. -/
theorem C9_empty_divisible_amended (r : ImageIORegion) :
    (ImageIORegion.is_divisible r = true ↔ ∃ s ∈ r.size, 1 < s)
    ∧ (ImageIORegion.empty r = true ↔ ∃ s ∈ r.size, s = 0)
    ∧ ((∀ s ∈ r.size, s ≤ 1) → ImageIORegion.is_divisible r = false) := by
  refine ⟨?_, ?_, ?_⟩
  · unfold ImageIORegion.is_divisible
    rw [List.any_eq_true]
    simp only [decide_eq_true_eq]
  · unfold ImageIORegion.empty
    rw [List.any_eq_true]
    simp only [beq_iff_eq]
  · intro h
    unfold ImageIORegion.is_divisible
    rw [List.any_eq_false]
    intro s hs
    simp only [decide_eq_true_eq]
    have := h s hs
    omega

/-- Witness for the amended C9: the all-sizes-one region satisfies the
hypothesis of the last part and indeed reports is_divisible false. -/
theorem C9_empty_divisible_amended_witness :
    (∀ s ∈ (⟨[0, 0], [1, 1]⟩ : ImageIORegion).size, s ≤ 1)
    ∧ ImageIORegion.is_divisible ⟨[0, 0], [1, 1]⟩ = false := by
  refine ⟨by decide, ?_⟩
  exact (C9_empty_divisible_amended ⟨[0, 0], [1, 1]⟩).2.2 (by decide)

/-- The methodSet branch of SingleMethodExecute resolved for a set
method: one leaf per ThreadID in the half-open range. -/
theorem SingleMethodExecute_set (numberOfThreads : Nat) :
    SingleMethodExecute true numberOfThreads
      = (List.range' 0 numberOfThreads, Except.ok ()) := by
  unfold SingleMethodExecute
  rw [runLeaves_false]
  simp

/-- C1: exactly-once execution.  Without an abort request,
ParallelizeArray invokes the work function exactly
lastIndexPlus1 - firstIndex times, exactly once per index of
[firstIndex, lastIndexPlus1), whatever the filter; and
SingleMethodExecute with a configured method and N workers invokes the
method exactly N times, once per ThreadID in [0, N), none repeated or
skipped. -/
theorem C1_exactly_once_execution (firstIndex lastIndexPlus1 N : Nat)
    (workSet : Bool) (filter : Option Bool)
    (hfl : filter ≠ some true) (hN : 1 ≤ N) :
    ((ParallelizeArray firstIndex lastIndexPlus1 workSet filter).2
        = Except.ok ()
      ∧ (ParallelizeArray firstIndex lastIndexPlus1 workSet filter).1.length
        = lastIndexPlus1 - firstIndex
      ∧ ∀ i, (ParallelizeArray firstIndex lastIndexPlus1 workSet
          filter).1.count i
        = if firstIndex ≤ i ∧ i < lastIndexPlus1 then 1 else 0)
    ∧ ((SingleMethodExecute true N).2 = Except.ok ()
      ∧ (SingleMethodExecute true N).1.length = N
      ∧ ∀ i, (SingleMethodExecute true N).1.count i
        = if i < N then 1 else 0) := by
  have hpa := ParallelizeArray_normal firstIndex lastIndexPlus1 workSet
    filter hfl
  have hsm := SingleMethodExecute_set N
  refine ⟨⟨by rw [hpa], ?_, ?_⟩, ⟨by rw [hsm], ?_, ?_⟩⟩
  · rw [hpa]
    exact List.length_range' _ _ _
  · intro i
    rw [hpa]
    show (List.range' firstIndex (lastIndexPlus1 - firstIndex)).count i = _
    rw [count_range']
    by_cases hc : firstIndex ≤ i ∧ i < firstIndex
        + (lastIndexPlus1 - firstIndex)
    · rw [if_pos hc, if_pos (by omega)]
    · rw [if_neg hc, if_neg (by omega)]
  · rw [hsm]
    exact List.length_range' _ _ _
  · intro i
    rw [hsm]
    show (List.range' 0 N).count i = _
    rw [count_range']
    by_cases hc : 0 ≤ i ∧ i < 0 + N
    · rw [if_pos hc, if_pos (by omega)]
    · rw [if_neg hc, if_neg (by omega)]

/-- Witness for C1 on the range [2, 5) and 3 workers: every hypothesis
holds and, through the theorem, index 3 is executed exactly once and
worker 9 never runs. -/
theorem C1_exactly_once_execution_witness :
    ((some false : Option Bool) ≠ some true) ∧ 1 ≤ 3
    ∧ (ParallelizeArray 2 5 true (some false)).2 = Except.ok ()
    ∧ (ParallelizeArray 2 5 true (some false)).1.length = 3
    ∧ (ParallelizeArray 2 5 true (some false)).1.count 3 = 1
    ∧ (SingleMethodExecute true 3).1.length = 3
    ∧ (SingleMethodExecute true 3).1.count 2 = 1
    ∧ (SingleMethodExecute true 3).1.count 9 = 0 := by
  have h := C1_exactly_once_execution 2 5 3 true (some false)
    (by decide) (by decide)
  refine ⟨by decide, by decide, h.1.1, h.1.2.1, ?_, h.2.2.1, ?_, ?_⟩
  · rw [h.1.2.2 3]
    decide
  · rw [h.2.2.2 2]
    decide
  · rw [h.2.2.2 9]
    decide

/-- C6 counterexample: with no work function configured,
ParallelizeArray on the range [0, 2) neither raises before dispatch
nor refrains from invoking: it reaches both work invocations and
completes normally, so no ConfigurationError precedes dispatch. -/
theorem C6_configuration_error_counterexample :
    ParallelizeArray 0 2 false none = ([0, 1], Except.ok ())
    ∧ (ParallelizeArray 0 2 false none).1 ≠ [] := by
  constructor
  · rfl
  · decide

/-- C6 amended: only SingleMethodExecute checks its configuration —
with no single method set it raises before any invocation.
ParallelizeArray and ParallelizeImageRegion perform no configuration
check at all: their behaviour is identical whether or not a work
function was configured, and dispatch proceeds regardless. -/
theorem C6_configuration_check_amended :
    (∀ N : Nat, SingleMethodExecute false N
        = ([], Except.error "No single method set!"))
    ∧ (∀ firstIndex lastIndexPlus1 : Nat, ∀ filter : Option Bool,
        ParallelizeArray firstIndex lastIndexPlus1 false filter
          = ParallelizeArray firstIndex lastIndexPlus1 true filter)
    ∧ (∀ numberOfThreads : Nat, ∀ index : List Int, ∀ size : List Nat,
        ∀ filter : Option Bool, ∀ chunks : List ImageIORegion,
        ParallelizeImageRegion numberOfThreads index size false filter chunks
          = ParallelizeImageRegion numberOfThreads index size true filter
              chunks)
    ∧ (ParallelizeArray 0 2 false none).1 = [0, 1] := by
  refine ⟨?_, ?_, ?_, rfl⟩
  · intro N
    rfl
  · intro firstIndex lastIndexPlus1 filter
    rfl
  · intro numberOfThreads index size filter chunks
    rfl

/-- With the abort flag raised the first leaf of a nonempty schedule
throws before invoking anything. -/
theorem runLeaves_abort {α : Type} (l : List α) (hne : l ≠ []) :
    runLeaves true l = ([], Except.error "ProcessAborted") := by
  cases l with
  | nil => exact absurd rfl hne
  | cons a l => rfl

/-- The final abort recheck passes for an absent or non-aborting
filter. -/
theorem finalAbortCheck_ok {filter : Option Bool} (h : filter ≠ some true) :
    finalAbortCheck filter = Except.ok () := by
  cases filter with
  | none => rfl
  | some b => cases b with
    | false => rfl
    | true => exact absurd rfl h

/-- C7 counterexample: with the abort flag already set, the
one-element range of ParallelizeArray and the one-worker path of
ParallelizeImageRegion still invoke the work function once — the abort
is only raised by the recheck after it — refuting the claim that no
work-function invocation occurs on those paths. -/
theorem C7_abort_before_start_counterexample :
    ParallelizeArray 5 6 true (some true)
      = ([5], Except.error "ProcessAborted")
    ∧ ParallelizeImageRegion 1 [0] [4] true (some true) []
      = ([⟨[0], [4]⟩], Except.error "ProcessAborted") :=
  ⟨rfl, rfl⟩

/-- C7 amended: with the abort flag true before any task starts, the
multi-element ParallelizeArray path and the multi-threaded
ParallelizeImageRegion path raise ProcessAborted with zero work
invocations; the single-element ParallelizeArray path and the
single-worker ParallelizeImageRegion path invoke the work function
exactly once and then raise ProcessAborted from the post-dispatch
recheck. -/
theorem C7_abort_before_start_amended
    (firstIndex lastIndexPlus1 numberOfThreads : Nat) (workSet : Bool)
    (index : List Int) (size : List Nat) (chunks : List ImageIORegion)
    (h1 : firstIndex + 1 < lastIndexPlus1) (h2 : numberOfThreads ≠ 1) :
    ParallelizeArray firstIndex lastIndexPlus1 workSet (some true)
      = ([], Except.error "ProcessAborted")
    ∧ ParallelizeArray firstIndex (firstIndex + 1) workSet (some true)
      = ([firstIndex], Except.error "ProcessAborted")
    ∧ ParallelizeImageRegion numberOfThreads index size workSet
        (some true) chunks
      = ([], Except.error "ProcessAborted")
    ∧ ParallelizeImageRegion 1 index size workSet (some true) chunks
      = ([⟨index, size⟩], Except.error "ProcessAborted") := by
  refine ⟨?_, ?_, ?_, ?_⟩
  · unfold ParallelizeArray
    rw [if_pos h1]
    have hne : List.range' firstIndex (lastIndexPlus1 - firstIndex)
        ≠ [] := by
      apply List.length_pos.mp
      rw [List.length_range']
      omega
    rw [Option.getD_some, runLeaves_abort _ hne]
    rfl
  · unfold ParallelizeArray
    rw [if_neg (by omega), if_pos rfl]
    rfl
  · unfold ParallelizeImageRegion
    rw [if_neg h2, Option.getD_some]
    cases chunks with
    | nil => rfl
    | cons c cs => rfl
  · unfold ParallelizeImageRegion
    rw [if_pos rfl]
    rfl

/-- Witness for the amended C7 on the range [0, 2), two workers, a
one-dimensional size-4 region and an empty chunk schedule. -/
theorem C7_abort_before_start_amended_witness :
    0 + 1 < 2 ∧ (2 : Nat) ≠ 1
    ∧ ParallelizeArray 0 2 true (some true)
        = ([], Except.error "ProcessAborted")
    ∧ ParallelizeArray 0 (0 + 1) true (some true)
        = ([0], Except.error "ProcessAborted")
    ∧ ParallelizeImageRegion 2 [0] [4] true (some true) []
        = ([], Except.error "ProcessAborted")
    ∧ ParallelizeImageRegion 1 [0] [4] true (some true) []
        = ([⟨[0], [4]⟩], Except.error "ProcessAborted") := by
  have h := C7_abort_before_start_amended 0 2 2 true [0] [4] []
    (by decide) (by decide)
  exact ⟨by decide, by decide, h.1, h.2.1, h.2.2.1, h.2.2.2⟩

/-- C8 counterexample: on the empty range [3, 3) with an aborting
filter, ParallelizeArray invokes nothing but still raises
ProcessAborted from the final recheck, refuting the claim that an
empty-range call never raises. -/
theorem C8_empty_range_counterexample :
    (ParallelizeArray 3 3 true (some true)).1 = []
    ∧ ParallelizeArray 3 3 true (some true)
        = ([], Except.error "ProcessAborted") :=
  ⟨rfl, rfl⟩

/-- C8 amended: an empty range invokes the work function zero times
whatever the filter, and the call returns normally provided the
filter's abort flag is not set; with an aborted filter the
post-dispatch recheck still raises. -/
theorem C8_empty_range_amended (firstIndex : Nat) (workSet : Bool)
    (filter filter2 : Option Bool) (h : filter ≠ some true) :
    ParallelizeArray firstIndex firstIndex workSet filter
      = ([], Except.ok ())
    ∧ (ParallelizeArray firstIndex firstIndex workSet filter2).1 = [] := by
  constructor
  · rw [ParallelizeArray_normal _ _ _ _ h, Nat.sub_self]
    rfl
  · unfold ParallelizeArray
    rw [if_neg (by omega), if_neg (by omega)]
    rfl

/-- Witness for the amended C8 at firstIndex 3 with no filter and with
an aborting filter. -/
theorem C8_empty_range_amended_witness :
    ((none : Option Bool) ≠ some true)
    ∧ ParallelizeArray 3 3 true none = ([], Except.ok ())
    ∧ (ParallelizeArray 3 3 true (some true)).1 = [] := by
  have h := C8_empty_range_amended 3 true none (some true) (by decide)
  exact ⟨by decide, h.1, h.2⟩

/-- C10: a single-worker ParallelizeImageRegion call on a region with
a zero-sized dimension still invokes the work function, exactly once,
with the original index and size arrays, although the region is empty
and holds zero elements; the invocation happens whatever the filter,
and with a non-aborting filter the call completes normally. -/
theorem C10_empty_region_invoked_once (index : List Int)
    (size : List Nat) (workSet : Bool) (filter filter2 : Option Bool)
    (chunks : List ImageIORegion) (d : Nat)
    (hd : d < size.length) (h0 : size.getD d 0 = 0)
    (hfl : filter ≠ some true) :
    ParallelizeImageRegion 1 index size workSet filter chunks
      = ([⟨index, size⟩], Except.ok ())
    ∧ (ParallelizeImageRegion 1 index size workSet filter2 chunks).1
      = [⟨index, size⟩]
    ∧ ImageIORegion.empty ⟨index, size⟩ = true
    ∧ size.prod = 0 := by
  have hgd : size[d] = 0 := by
    rw [← List.getD_eq_getElem size 0 hd]
    exact h0
  have hmem : (0 : Nat) ∈ size := hgd ▸ List.getElem_mem hd
  refine ⟨?_, ?_, ?_, List.prod_eq_zero hmem⟩
  · unfold ParallelizeImageRegion
    rw [if_pos rfl]
    show ([(⟨index, size⟩ : ImageIORegion)], finalAbortCheck filter) = _
    rw [finalAbortCheck_ok hfl]
  · unfold ParallelizeImageRegion
    rw [if_pos rfl]
    rfl
  · unfold ImageIORegion.empty
    rw [List.any_eq_true]
    exact ⟨0, hmem, by simp⟩

/-- Witness for C10 on the empty two-dimensional region with sizes
0 and 3 at corner (2, 2). -/
theorem C10_empty_region_invoked_once_witness :
    0 < ([0, 3] : List Nat).length
    ∧ ([0, 3] : List Nat).getD 0 0 = 0
    ∧ ((none : Option Bool) ≠ some true)
    ∧ ParallelizeImageRegion 1 [2, 2] [0, 3] true none []
        = ([⟨[2, 2], [0, 3]⟩], Except.ok ())
    ∧ ImageIORegion.empty ⟨[2, 2], [0, 3]⟩ = true
    ∧ ([0, 3] : List Nat).prod = 0 := by
  have h := C10_empty_region_invoked_once [2, 2] [0, 3] true none
    (some true) [] 0 (by decide) (by decide) (by decide)
  exact ⟨by decide, by decide, by decide, h.1, h.2.2.1, h.2.2.2⟩
